import Mathlib

/-!
Verification of the table-dependency resolver and the retry/timeout wrapper of
the photogen backend.

The Python sources embedded here are
`src/backend/app/utils/table_dependency.py` (class `TableDependencyMap`:
`_build_dependencies`, `get_truncation_order`, `verify_truncation_order`,
`_find_circular_dependencies`) and
`src/backend/app/database/retry_handler.py` (`retry_database_operation`,
`with_timeout`).

Python dicts are embedded as association lists in insertion order (Python
dicts preserve insertion order, which the resolver relies on for its
deterministic output); Python sets of strings are embedded as duplicate-free
lists in insertion order, since the code only ever queries membership,
emptiness and cardinality of these sets.  Logging and `print` calls are
side effects with no influence on results and are not modelled.
-/

/-- An association list of string keys (one entry per table). -/
abbrev TableAssoc := List (String × List String)

/-- Dictionary read with default: models `d[k]` on a dict whose keys are the
tables (or `d.get(k, set())` where the code uses the defaulting form). -/
def lookupVal : TableAssoc → String → List String
  | [], _ => []
  | p :: r, k => if p.1 = k then p.2 else lookupVal r k

/-- Whether `k` is a key of the dict (used to model `KeyError` on `d[k]`). -/
def hasKey : TableAssoc → String → Bool
  | [], _ => false
  | p :: r, k => if p.1 = k then true else hasKey r k

/-- Python `set.add` on a set embedded as a duplicate-free list. -/
def addStr (s : List String) (v : String) : List String :=
  if v ∈ s then s else s ++ [v]

/-- `d[k].add(v)`: update the value set at key `k` (no-op on a missing key;
callers only use it when `k` is a key). -/
def alAdd (m : TableAssoc) (k v : String) : TableAssoc :=
  m.map (fun p => if p.1 = k then (p.1, addStr p.2 v) else p)

/-- The state of `TableDependencyMap` after `_build_dependencies`:
the inspected table names, the forward map `dependencies` (table → tables it
depends on) and the reverse map `reverse_dependencies`. -/
structure DepMap where
  tables : List String
  deps : TableAssoc
  rdeps : TableAssoc
deriving DecidableEq

/-- `self.dependencies[t]` — the set of tables `t` directly depends on. -/
def depsOf (dm : DepMap) (t : String) : List String := lookupVal dm.deps t

/-- `self.reverse_dependencies.get(t, set())` — tables depending on `t`. -/
def rdepsOf (dm : DepMap) (t : String) : List String := lookupVal dm.rdeps t

/-- The inner loop of `_build_dependencies` for one table `t`: for each
foreign key, add `rt` to `dependencies[t]` and `t` to
`reverse_dependencies[rt]`.  The latter is a plain dict indexing, so a
referenced table that is not a key raises `KeyError`, modelled as
`Except.error rt`. -/
def addFks (t : String) : List String → TableAssoc × TableAssoc →
    Except String (TableAssoc × TableAssoc)
  | [], st => .ok st
  | rt :: rts, st =>
    let d := alAdd st.1 t rt
    if hasKey st.2 rt then addFks t rts (d, alAdd st.2 rt t)
    else .error rt

/-- The outer loop of `_build_dependencies` over all tables. -/
def buildLoop (fks : String → List String) :
    List String → TableAssoc × TableAssoc → Except String (TableAssoc × TableAssoc)
  | [], st => .ok st
  | t :: ts, st =>
    match addFks t (fks t) st with
    | .ok st' => buildLoop fks ts st'
    | .error e => .error e

/-- `TableDependencyMap._build_dependencies`, with the introspection result
given as the list of table names and a lookup of referenced tables per table.
Both dicts start with an empty set per inspected table. -/
def build_dependencies (tables : List String) (fks : String → List String) :
    Except String DepMap :=
  let init : TableAssoc := tables.map (fun t => (t, []))
  match buildLoop fks tables (init, init) with
  | .ok st => .ok ⟨tables, st.1, st.2⟩
  | .error e => .error e

/-- One round's candidate list in `get_truncation_order`: the tables with no
remaining dependencies; if there are none (a cycle), all tables attaining the
minimum number of remaining dependencies, mirroring
`min(len(deps) for deps in remaining_deps.values() if deps)`. -/
def chooseRound (r : TableAssoc) : List String :=
  if ((r.filter (fun p => p.2.isEmpty)).map Prod.fst).isEmpty then
    match (r.map (fun p => p.2.length)).filter (fun n => n != 0) with
    | [] => []
    | x :: xs =>
      (r.filter (fun p => p.2.length == xs.foldl min x)).map Prod.fst
  else (r.filter (fun p => p.2.isEmpty)).map Prod.fst

/-- `remaining_deps.pop(t)` followed by discarding `t` from every remaining
dependency set. -/
def removeTable (r : TableAssoc) (t : String) : TableAssoc :=
  (r.filter (fun p => p.1 != t)).map (fun p => (p.1, p.2.filter (fun d => d != t)))

/-- Process one round: pop every chosen table and discard it everywhere. -/
def processRound (r : TableAssoc) (c : List String) : TableAssoc :=
  c.foldl removeTable r

/-- The `while remaining_deps:` loop of `get_truncation_order`.  Each round
removes at least one table, so `r.length` rounds always suffice; the fuel
argument makes the recursion structural while computing exactly the Python
loop whenever `r.length ≤ fuel`. -/
def truncGo : Nat → TableAssoc → List String
  | 0, _ => []
  | fuel + 1, r =>
    if r.isEmpty then []
    else
      let c := chooseRound r
      c ++ truncGo fuel (processRound r c)

/-- `TableDependencyMap.get_truncation_order`: run the rounds on a working
copy of `dependencies`, then return the reversed emission order. -/
def get_truncation_order (dm : DepMap) : List String :=
  (truncGo dm.deps.length dm.deps).reverse

/-- Python `set.add` on a set of edge pairs. -/
def addPair (c : List (String × String)) (p : String × String) :
    List (String × String) :=
  if p ∈ c then c else c ++ [p]

/-- The pairs `(cycle[i], cycle[i+1])` of consecutive elements. -/
def consecPairs : List String → List (String × String)
  | a :: b :: rest => (a, b) :: consecPairs (b :: rest)
  | _ => []

/-- Record every edge of an extracted cycle, then `(cycle[-1], cycle[0])`. -/
def addCycleEdges (c : List (String × String)) (cy : List String) :
    List (String × String) :=
  let c' := (consecPairs cy).foldl addPair c
  match cy.getLast?, cy.head? with
  | some lst, some hd => addPair c' (lst, hd)
  | _, _ => c'

/-- `path.index(cur)` — index of the first occurrence. -/
def firstIdx : List String → String → Nat
  | [], _ => 0
  | a :: l, x => if a = x then 0 else firstIdx l x + 1

/-- The mutable state of the nested `dfs` in `_find_circular_dependencies`:
`(visited, path, circular_deps)`. -/
abbrev DfsSt := List String × List String × List (String × String)

/-- The nested `dfs` of `_find_circular_dependencies`.  The Python recursion
is bounded: each non-trivial call appends a fresh element to the duplicate-free
`path`, so the nesting depth never exceeds the number of tables; the fuel
argument makes this structural, and the top-level call passes enough fuel for
the zero-fuel branch to be unreachable. -/
def dfsF (dm : DepMap) : Nat → String → DfsSt → DfsSt
  | 0, _, st => st
  | fuel + 1, cur, (visited, path, circ) =>
    if cur ∈ path then
      let cy := path.drop (firstIdx path cur) ++ [cur]
      (visited, path, addCycleEdges circ cy)
    else if cur ∈ visited then (visited, path, circ)
    else
      let st' := (depsOf dm cur).foldl (fun st d => dfsF dm fuel d st)
        (cur :: visited, path ++ [cur], circ)
      (st'.1, st'.2.1.dropLast, st'.2.2)

/-- `TableDependencyMap._find_circular_dependencies`: first record every
self-reference as a `(t, t)` pair, then run a depth-first search from every
table not already known to sit in a recorded cycle. -/
def find_circular_dependencies (dm : DepMap) : List (String × String) :=
  let selfRefs := dm.tables.foldl
    (fun c t => if t ∈ depsOf dm t then addPair c (t, t) else c) []
  dm.tables.foldl
    (fun c s =>
      if dm.tables.any (fun other => decide ((s, other) ∈ c)) then c
      else (dfsF dm (dm.tables.length + 1) s ([], [], c)).2.2)
    selfRefs

/-- The `for table in order:` loop of `verify_truncation_order`, with the
`processed` set threaded through.  A dependent is tolerated when its edge is
in the circular set, when it was already processed, or when it does not occur
in the candidate order. -/
def verifyLoop (dm : DepMap) (circ : List (String × String))
    (order : List String) : List String → List String → Bool
  | _, [] => true
  | processed, t :: rest =>
    if (rdepsOf dm t).all (fun d =>
        decide ((d, t) ∈ circ) || decide (d ∈ processed) || !(decide (d ∈ order)))
    then verifyLoop dm circ order (t :: processed) rest
    else false

/-- `TableDependencyMap.verify_truncation_order`: reject unless the candidate
holds exactly the set of tables, then run the per-table dependent check with
edges of detected cycles exempted. -/
def verify_truncation_order (dm : DepMap) (order : List String) : Bool :=
  if order.all (fun t => decide (t ∈ dm.tables)) &&
      dm.tables.all (fun t => decide (t ∈ order)) then
    verifyLoop dm (find_circular_dependencies dm) order [] order
  else false

/-! ### The retry/timeout wrapper (`retry_handler.py`)

Exceptions are embedded by what the wrapper observes of them: whether
`isinstance(e, non_retriable_exceptions)` and `isinstance(e, retriable_exceptions)`
hold, whether `"timeout" in str(e).lower()`, and an identity tag so that
"propagates the same exception object" is expressible.  Delays are exact
rationals; a sleep is modelled by recording its duration. -/

structure DbExc where
  nonRetriable : Bool
  retriable : Bool
  msgHasTimeout : Bool
  tag : Nat
deriving DecidableEq

/-- The observable outcome of the retry wrapper: the value returned or the
exception propagated, the number of invocations of the wrapped operation, and
the recorded sleep durations in order. -/
inductive RetryOutcome (α : Type) where
  | ok (value : α) (calls : Nat) (sleeps : List ℚ)
  | raised (e : DbExc) (calls : Nat) (sleeps : List ℚ)
  | maxRetriesExceeded (last : DbExc) (calls : Nat) (sleeps : List ℚ)
  | unexpected
deriving DecidableEq

/-- The `for attempt in range(max_retries + 1)` loop of the wrapper produced
by `retry_database_operation`.  `op n` is the result of the `n`-th invocation
of the wrapped operation.  `remaining` counts the loop iterations left
(initially `maxRetries + 1`); `last` is `last_exception`. -/
def retryGo {α : Type} (op : Nat → Except DbExc α) (maxRetries : Nat)
    (backoffFactor maxDelay : ℚ) :
    Nat → Nat → ℚ → List ℚ → Option DbExc → RetryOutcome α
  | 0, _, _, sleeps, last =>
    match last with
    | some e => .maxRetriesExceeded e (maxRetries + 1) sleeps
    | none => .unexpected
  | remaining + 1, attempt, delay, sleeps, last =>
    match op attempt with
    | .ok v => .ok v (attempt + 1) sleeps
    | .error e =>
      if e.nonRetriable then .raised e (attempt + 1) sleeps
      else if !e.retriable then .raised e (attempt + 1) sleeps
      else if attempt < maxRetries then
        retryGo op maxRetries backoffFactor maxDelay remaining (attempt + 1)
          (min (delay * backoffFactor) maxDelay) (sleeps ++ [delay]) (some e)
      else
        retryGo op maxRetries backoffFactor maxDelay remaining (attempt + 1)
          delay sleeps (some e)
  -- `last` is unused in the `none` continuation branches only spuriously;
  -- Python assigns `last_exception = e` before both.

/-- The wrapper built by `retry_database_operation(max_retries, initial_delay,
max_delay, backoff_factor)` applied to an operation. -/
def retry_database_operation {α : Type} (maxRetries : Nat)
    (initialDelay maxDelay backoffFactor : ℚ)
    (op : Nat → Except DbExc α) : RetryOutcome α :=
  retryGo op maxRetries backoffFactor maxDelay (maxRetries + 1) 0 initialDelay [] none

/-- What the timeout wrapper observes of one call of the wrapped operation:
the elapsed wall-clock time `time.time() - start_time` at the handler, and
the call's result. -/
structure TimedOp (α : Type) where
  elapsed : ℚ
  result : Except DbExc α

/-- Outcome of the wrapper built by `with_timeout`:
a normal return, the operation's own exception re-raised, or a
`DatabaseTimeoutError` raised `from` the underlying exception. -/
inductive TimeoutOutcome (α : Type) where
  | ok (v : α)
  | raised (e : DbExc)
  | timedOut (cause : DbExc)
deriving DecidableEq

/-- The wrapper body of `with_timeout(timeout)`: pass a successful return
through; pass an exception mentioning "timeout" through; otherwise raise
`DatabaseTimeoutError` when the elapsed wall time exceeds the budget, and
re-raise the original exception when it does not. -/
def with_timeout {α : Type} (timeout : ℚ) (op : TimedOp α) : TimeoutOutcome α :=
  match op.result with
  | .ok v => .ok v
  | .error e =>
    if e.msgHasTimeout then .raised e
    else if op.elapsed > timeout then .timedOut e
    else .raised e

/-! ### Specification-side definitions used by the statements below -/

/-- `ListBefore a b l`: `a` occurs in `l` and `b` occurs strictly later. -/
def ListBefore (a b : String) (l : List String) : Prop :=
  ∃ l₁ l₂, l = l₁ ++ a :: l₂ ∧ b ∈ l₂

/-- A dependency cycle: a nonempty chain of "depends on" edges from `t`
back to `t`. -/
def HasCycle (dm : DepMap) : Prop :=
  ∃ t p, List.Chain (fun a b => b ∈ depsOf dm a) t (p ++ [t])

/-- A dependency map with no cyclic dependencies. -/
def Acyclic (dm : DepMap) : Prop := ¬ HasCycle dm

/-- Invariant of the working copy `remaining_deps` during
`get_truncation_order` on a dependency map `dm`: keys are duplicate-free,
every remaining dependency is itself a remaining key, and every remaining
dependency is one of the original dependencies recorded in `dm`. -/
def KahnInv (dm : DepMap) (r : TableAssoc) : Prop :=
  (r.map Prod.fst).Nodup ∧
  (∀ p ∈ r, ∀ d ∈ p.2, d ∈ r.map Prod.fst) ∧
  (∀ p ∈ r, ∀ d ∈ p.2, d ∈ depsOf dm p.1)

/-- The greedy successor used in the walk argument: the first remaining
dependency of `k`. -/
def stepD (r : TableAssoc) (k : String) : String := (lookupVal r k).headD ""

/-- A walk of `n` dependency steps starting at `k`. -/
def walkL (r : TableAssoc) : Nat → String → List String
  | 0, k => [k]
  | n + 1, k => k :: walkL r n (stepD r k)

/-- The shape `_build_dependencies` guarantees for the state it constructs:
duplicate-free table list, both dicts keyed exactly by the tables in order,
all recorded dependencies inside the table set, and the reverse map the exact
transpose of the forward map. -/
def WellFormed (dm : DepMap) : Prop :=
  dm.tables.Nodup ∧
  dm.deps.map Prod.fst = dm.tables ∧
  dm.rdeps.map Prod.fst = dm.tables ∧
  (∀ p ∈ dm.deps, ∀ d ∈ p.2, d ∈ dm.tables) ∧
  (∀ p ∈ dm.rdeps, ∀ d ∈ p.2, d ∈ dm.tables) ∧
  (∀ t ∈ dm.tables, ∀ d ∈ dm.tables, (d ∈ depsOf dm t ↔ t ∈ rdepsOf dm d))

/-- Invariant of the pair of dicts threaded through `_build_dependencies`. -/
def BuildInv (tables : List String) (st : TableAssoc × TableAssoc) : Prop :=
  st.1.map Prod.fst = tables ∧
  st.2.map Prod.fst = tables ∧
  (∀ p ∈ st.1, ∀ d ∈ p.2, d ∈ tables) ∧
  (∀ p ∈ st.2, ∀ d ∈ p.2, d ∈ tables) ∧
  (∀ a b : String, (b ∈ lookupVal st.1 a ↔ a ∈ lookupVal st.2 b))

instance wellFormedDecidable (dm : DepMap) : Decidable (WellFormed dm) := by
  unfold WellFormed
  infer_instance

/-! ### Association-list and set-embedding lemmas -/

theorem lookupVal_eq_of_mem {r : TableAssoc} {k : String} {ds : List String}
    (hnd : (r.map Prod.fst).Nodup) (h : (k, ds) ∈ r) : lookupVal r k = ds := by
  induction r with
  | nil => cases h
  | cons p r ih =>
    simp only [List.map_cons, List.nodup_cons] at hnd
    rcases List.mem_cons.mp h with h | h
    · subst h
      simp [lookupVal]
    · have hk : p.1 ≠ k := by
        intro hpk
        exact hnd.1 (hpk ▸ List.mem_map_of_mem Prod.fst h)
      simp only [lookupVal, if_neg hk]
      exact ih hnd.2 h

theorem mem_of_lookupVal {r : TableAssoc} {k : String}
    (h : k ∈ r.map Prod.fst) : (k, lookupVal r k) ∈ r := by
  induction r with
  | nil => cases h
  | cons p r ih =>
    by_cases hpk : p.1 = k
    · subst hpk
      simp [lookupVal]
    · simp only [List.map_cons, List.mem_cons] at h
      rcases h with h | h
      · exact absurd h.symm hpk
      · simp only [lookupVal, if_neg hpk]
        exact List.mem_cons_of_mem _ (ih h)

theorem lookupVal_ne_nil_mem {r : TableAssoc} {k : String}
    (h : lookupVal r k ≠ []) : k ∈ r.map Prod.fst := by
  induction r with
  | nil => exact absurd rfl h
  | cons p r ih =>
    by_cases hpk : p.1 = k
    · exact List.mem_map.mpr ⟨p, List.mem_cons_self _ _, hpk⟩
    · simp only [lookupVal, if_neg hpk] at h
      exact List.mem_cons_of_mem _ (ih h)

theorem hasKey_iff {r : TableAssoc} {k : String} :
    hasKey r k = true ↔ k ∈ r.map Prod.fst := by
  induction r with
  | nil => simp [hasKey]
  | cons p r ih =>
    by_cases hpk : p.1 = k
    · simp [hasKey, hpk]
    · simp [hasKey, hpk, ih, Ne.symm hpk]

theorem mem_addStr {s : List String} {v x : String} :
    x ∈ addStr s v ↔ x ∈ s ∨ x = v := by
  unfold addStr
  by_cases h : v ∈ s
  · simp only [if_pos h]
    constructor
    · exact Or.inl
    · rintro (hx | rfl)
      · exact hx
      · exact h
  · simp [if_neg h]

theorem alAdd_keys (m : TableAssoc) (k v : String) :
    (alAdd m k v).map Prod.fst = m.map Prod.fst := by
  induction m with
  | nil => rfl
  | cons p m ih =>
    by_cases hpk : p.1 = k <;> simp [alAdd, hpk] at ih ⊢ <;> exact ih

theorem alAdd_cons (p : String × List String) (m : TableAssoc) (k v : String) :
    alAdd (p :: m) k v =
      (if p.1 = k then (p.1, addStr p.2 v) else p) :: alAdd m k v := rfl

theorem lookupVal_alAdd_same {m : TableAssoc} {k : String} (v : String)
    (h : k ∈ m.map Prod.fst) :
    lookupVal (alAdd m k v) k = addStr (lookupVal m k) v := by
  induction m with
  | nil => cases h
  | cons p m ih =>
    rw [alAdd_cons]
    by_cases hpk : p.1 = k
    · rw [if_pos hpk]
      simp [lookupVal, hpk]
    · rw [if_neg hpk]
      simp only [List.map_cons, List.mem_cons] at h
      rcases h with h | h
      · exact absurd h.symm hpk
      · simp only [lookupVal, if_neg hpk]
        exact ih h

theorem lookupVal_alAdd_other {m : TableAssoc} {k t : String} (v : String)
    (h : t ≠ k) : lookupVal (alAdd m k v) t = lookupVal m t := by
  induction m with
  | nil => rfl
  | cons p m ih =>
    rw [alAdd_cons]
    by_cases hpk : p.1 = k
    · rw [if_pos hpk]
      have hpt : p.1 ≠ t := by
        intro hx
        exact h (by rw [← hx, hpk])
      simp only [lookupVal, if_neg hpt]
      exact ih
    · rw [if_neg hpk]
      by_cases hpt : p.1 = t
      · simp only [lookupVal, if_pos hpt]
      · simp only [lookupVal, if_neg hpt]
        exact ih

/-! ### Ordering predicate: `a` occurs strictly before `b` in the list -/

theorem listBefore_append_left {a b : String} {l₂ : List String}
    (l : List String) (h : ListBefore a b l₂) : ListBefore a b (l ++ l₂) := by
  obtain ⟨m₁, m₂, rfl, hb⟩ := h
  exact ⟨l ++ m₁, m₂, by simp, hb⟩

theorem listBefore_reverse {a b : String} {l : List String}
    (h : ListBefore a b l) : ListBefore b a l.reverse := by
  obtain ⟨l₁, l₂, rfl, hb⟩ := h
  obtain ⟨m₁, m₂, rfl⟩ := List.append_of_mem hb
  refine ⟨m₂.reverse, m₁.reverse ++ a :: l₁.reverse, ?_, ?_⟩
  · simp
  · simp

theorem listBefore_split {d t : String} {pre rest : List String}
    (hnd : (pre ++ t :: rest).Nodup) (hb : ListBefore d t (pre ++ t :: rest)) :
    d ∈ pre := by
  induction pre with
  | nil =>
    obtain ⟨l₁, l₂, heq, hmem⟩ := hb
    simp only [List.nil_append] at heq hnd
    exfalso
    cases l₁ with
    | nil =>
      simp only [List.nil_append, List.cons.injEq] at heq
      rw [heq.2] at hnd
      exact (List.nodup_cons.mp hnd).1 hmem
    | cons x l₁ =>
      simp only [List.cons_append, List.cons.injEq] at heq
      have ht : t ∈ rest := by
        rw [heq.2]
        exact List.mem_append_right l₁ (List.mem_cons_of_mem d hmem)
      exact (List.nodup_cons.mp hnd).1 ht
  | cons p pre ih =>
    obtain ⟨l₁, l₂, heq, hmem⟩ := hb
    simp only [List.cons_append] at heq hnd
    cases l₁ with
    | nil =>
      simp only [List.nil_append, List.cons.injEq] at heq
      exact List.mem_cons.mpr (Or.inl heq.1.symm)
    | cons x l₁ =>
      simp only [List.cons_append, List.cons.injEq] at heq
      have hnd' := (List.nodup_cons.mp hnd).2
      have : ListBefore d t (pre ++ t :: rest) := ⟨l₁, l₂, heq.2, hmem⟩
      exact List.mem_cons_of_mem _ (ih hnd' this)

/-! ### Cycles and acyclicity of the dependency graph -/

theorem chain_rank_lt {rank : String → Nat} {R : String → String → Prop}
    (hR : ∀ a b, R a b → rank b < rank a) :
    ∀ (l : List String) (a b : String), List.Chain R a l → b ∈ l → rank b < rank a := by
  intro l
  induction l with
  | nil => intro a b _ hb; cases hb
  | cons c l ih =>
    intro a b hchain hb
    rw [List.chain_cons] at hchain
    rcases List.mem_cons.mp hb with rfl | hb
    · exact hR a b hchain.1
    · exact lt_trans (ih c b hchain.2 hb) (hR a c hchain.1)

/-- A ranking certificate suffices for acyclicity: if every direct
dependency strictly decreases a rank, no dependency cycle exists.  (For the
finite graphs at hand such a rank exists exactly when there is no cycle;
this direction is the one needed to certify concrete acyclic maps.) -/
theorem acyclic_of_rank (dm : DepMap) (rank : String → Nat)
    (hkeys : dm.deps.map Prod.fst = dm.tables)
    (h : ∀ y ∈ dm.tables, ∀ x ∈ depsOf dm y, rank x < rank y) : Acyclic dm := by
  rintro ⟨t, p, hchain⟩
  have hR : ∀ a b, b ∈ depsOf dm a → rank b < rank a := by
    intro a b hb
    have hne : depsOf dm a ≠ [] := by
      intro hnil
      rw [hnil] at hb
      cases hb
    have ha : a ∈ dm.tables := hkeys ▸ lookupVal_ne_nil_mem hne
    exact h a ha b hb
  have := chain_rank_lt hR (p ++ [t]) t t hchain
    (List.mem_append_right p (List.mem_cons_self t []))
  exact lt_irrefl _ this

/-! ### Facts about one resolver round -/

theorem foldl_min_mem : ∀ (xs : List Nat) (x : Nat),
    xs.foldl min x = x ∨ xs.foldl min x ∈ xs := by
  intro xs
  induction xs with
  | nil => intro x; exact Or.inl rfl
  | cons y xs ih =>
    intro x
    rcases ih (min x y) with h | h
    · rcases min_choice x y with hxy | hxy
      · exact Or.inl (by rw [List.foldl_cons, h, hxy])
      · refine Or.inr (List.mem_cons.mpr (Or.inl ?_))
        rw [List.foldl_cons, h, hxy]
    · exact Or.inr (List.mem_cons_of_mem _ (by rw [List.foldl_cons]; exact h))

theorem mem_map_fst_filter {r : TableAssoc} {f : String × List String → Bool}
    {t : String} (h : t ∈ (r.filter f).map Prod.fst) : t ∈ r.map Prod.fst := by
  obtain ⟨p, hp, rfl⟩ := List.mem_map.mp h
  exact List.mem_map_of_mem _ (List.mem_of_mem_filter hp)

theorem chooseRound_subset {r : TableAssoc} {t : String} (h : t ∈ chooseRound r) :
    t ∈ r.map Prod.fst := by
  unfold chooseRound at h
  by_cases hemp : ((r.filter (fun p => p.2.isEmpty)).map Prod.fst).isEmpty = true
  · rw [if_pos hemp] at h
    split at h
    · cases h
    · exact mem_map_fst_filter h
  · rw [if_neg hemp] at h
    exact mem_map_fst_filter h

theorem chooseRound_ne_nil {r : TableAssoc} (h : r ≠ []) : chooseRound r ≠ [] := by
  unfold chooseRound
  by_cases hemp : ((r.filter (fun p => p.2.isEmpty)).map Prod.fst).isEmpty = true
  · rw [if_pos hemp]
    rw [List.isEmpty_iff, List.map_eq_nil_iff, List.filter_eq_nil_iff] at hemp
    split
    · next heq =>
      exfalso
      obtain ⟨q, r', rfl⟩ := List.exists_cons_of_ne_nil h
      have hq : ¬ q.2.isEmpty = true := hemp q (List.mem_cons_self q r')
      have hqlen : q.2.length ≠ 0 := by
        intro h0
        exact hq (by rw [List.isEmpty_iff, ← List.length_eq_zero, h0])
      have hmem : q.2.length ∈ ((q :: r').map (fun p => p.2.length)).filter
          (fun n => n != 0) := by
        refine List.mem_filter.mpr ⟨List.mem_map_of_mem _ (List.mem_cons_self q r'), ?_⟩
        simpa using hqlen
      rw [heq] at hmem
      cases hmem
    · next x xs heq =>
      intro hnil
      rw [List.map_eq_nil_iff, List.filter_eq_nil_iff] at hnil
      have hm : xs.foldl min x ∈ x :: xs := by
        rcases foldl_min_mem xs x with hh | hh
        · rw [hh]; exact List.mem_cons_self _ _
        · exact List.mem_cons_of_mem _ hh
      rw [← heq] at hm
      have hm' := List.mem_of_mem_filter hm
      obtain ⟨p, hp, hpl⟩ := List.mem_map.mp hm'
      refine hnil p hp ?_
      simp [hpl]
  · rw [if_neg hemp]
    rw [Bool.not_eq_true, List.isEmpty_eq_false] at hemp
    exact hemp

theorem chooseRound_of_empty_entry {r : TableAssoc}
    (hne : ∃ p ∈ r, p.2 = []) {t : String} (h : t ∈ chooseRound r) :
    ∃ p ∈ r, p.1 = t ∧ p.2 = [] := by
  obtain ⟨q, hq, hq2⟩ := hne
  have hfil : ¬ ((r.filter (fun p => p.2.isEmpty)).map Prod.fst).isEmpty = true := by
    rw [List.isEmpty_iff, List.map_eq_nil_iff, List.filter_eq_nil_iff]
    intro hall
    exact hall q hq (by rw [hq2]; rfl)
  unfold chooseRound at h
  rw [if_neg hfil] at h
  obtain ⟨p, hp, rfl⟩ := List.mem_map.mp h
  have hpf := List.mem_filter.mp hp
  exact ⟨p, hpf.1, rfl, List.isEmpty_iff.mp hpf.2⟩

theorem chooseRound_nodup {r : TableAssoc}
    (h : (r.map Prod.fst).Nodup) : (chooseRound r).Nodup := by
  have hsub : ∀ (f : String × List String → Bool),
      ((r.filter f).map Prod.fst).Nodup := by
    intro f
    exact ((List.filter_sublist r).map Prod.fst).nodup h
  unfold chooseRound
  by_cases hemp : ((r.filter (fun p => p.2.isEmpty)).map Prod.fst).isEmpty = true
  · rw [if_pos hemp]
    split
    · exact List.nodup_nil
    · exact hsub _
  · rw [if_neg hemp]
    exact hsub _

theorem removeTable_cons (p : String × List String) (r : TableAssoc) (t : String) :
    removeTable (p :: r) t =
      if p.1 = t then removeTable r t
      else (p.1, p.2.filter (fun d => d != t)) :: removeTable r t := by
  by_cases hp : p.1 = t
  · have hc : (p.1 != t) = false := by simp [hp]
    simp [removeTable, List.filter_cons, hc, hp]
  · have hc : (p.1 != t) = true := by simp [hp]
    simp [removeTable, List.filter_cons, hc, hp]

theorem keys_removeTable (r : TableAssoc) (t : String) :
    (removeTable r t).map Prod.fst = (r.map Prod.fst).filter (fun k => k != t) := by
  induction r with
  | nil => rfl
  | cons p r ih =>
    rw [removeTable_cons]
    by_cases hp : p.1 = t
    · have hc : (p.1 != t) = false := by simp [hp]
      rw [if_pos hp, List.map_cons, List.filter_cons, hc]
      exact ih
    · have hc : (p.1 != t) = true := by simp [hp]
      rw [if_neg hp]
      simp only [List.map_cons, List.filter_cons, hc, cond_true]
      rw [ih]
      simp

theorem mem_keys_removeTable {r : TableAssoc} {t k : String} :
    k ∈ (removeTable r t).map Prod.fst ↔ k ∈ r.map Prod.fst ∧ k ≠ t := by
  rw [keys_removeTable, List.mem_filter]
  simp

theorem removeTable_length_le (r : TableAssoc) (t : String) :
    (removeTable r t).length ≤ r.length := by
  unfold removeTable
  rw [List.length_map]
  exact List.length_filter_le _ _

theorem removeTable_length_lt {r : TableAssoc} {t : String}
    (h : t ∈ r.map Prod.fst) : (removeTable r t).length < r.length := by
  induction r with
  | nil => cases h
  | cons p r ih =>
    rw [removeTable_cons]
    simp only [List.map_cons, List.mem_cons] at h
    by_cases hp : p.1 = t
    · rw [if_pos hp, List.length_cons]
      exact Nat.lt_succ_of_le (removeTable_length_le r t)
    · have ht : t ∈ r.map Prod.fst := by
        rcases h with h | h
        · exact absurd h.symm hp
        · exact h
      rw [if_neg hp, List.length_cons, List.length_cons]
      exact Nat.succ_lt_succ (ih ht)

/-! ### Facts about processing a round and the main loop -/

theorem mem_keys_processRound {c : List String} :
    ∀ {r : TableAssoc} {k : String},
      (k ∈ (processRound r c).map Prod.fst ↔ k ∈ r.map Prod.fst ∧ k ∉ c) := by
  induction c with
  | nil =>
    intro r k
    simp [processRound]
  | cons t c ih =>
    intro r k
    show k ∈ (processRound (removeTable r t) c).map Prod.fst ↔ _
    rw [ih, mem_keys_removeTable]
    constructor
    · rintro ⟨⟨hk, hkt⟩, hkc⟩
      refine ⟨hk, ?_⟩
      intro hc
      rcases List.mem_cons.mp hc with rfl | hc
      · exact hkt rfl
      · exact hkc hc
    · rintro ⟨hk, hkc⟩
      exact ⟨⟨hk, fun he => hkc (he ▸ List.mem_cons_self k c)⟩,
        fun hc => hkc (List.mem_cons_of_mem _ hc)⟩

theorem nodup_keys_removeTable {r : TableAssoc} {t : String}
    (h : (r.map Prod.fst).Nodup) : ((removeTable r t).map Prod.fst).Nodup := by
  rw [keys_removeTable]
  exact h.filter _

theorem nodup_keys_processRound {c : List String} :
    ∀ {r : TableAssoc}, (r.map Prod.fst).Nodup →
      ((processRound r c).map Prod.fst).Nodup := by
  induction c with
  | nil => intro r h; exact h
  | cons t c ih =>
    intro r h
    exact ih (nodup_keys_removeTable h)

theorem processRound_length_le (c : List String) :
    ∀ (r : TableAssoc), (processRound r c).length ≤ r.length := by
  induction c with
  | nil => intro r; exact Nat.le_refl _
  | cons t c ih =>
    intro r
    exact Nat.le_trans (ih (removeTable r t)) (removeTable_length_le r t)

theorem processRound_length_lt {r : TableAssoc} {c : List String}
    (hc : c ≠ []) (hsub : ∀ t ∈ c, t ∈ r.map Prod.fst) :
    (processRound r c).length < r.length := by
  obtain ⟨t, c', rfl⟩ := List.exists_cons_of_ne_nil hc
  have h1 : (removeTable r t).length < r.length :=
    removeTable_length_lt (hsub t (List.mem_cons_self t c'))
  exact Nat.lt_of_le_of_lt (processRound_length_le c' (removeTable r t)) h1

theorem mem_removeTable_src {r : TableAssoc} {t : String} {q : String × List String}
    (hq : q ∈ removeTable r t) :
    ∃ p ∈ r, q.1 = p.1 ∧ q.2 = p.2.filter (fun d => d != t) := by
  obtain ⟨p, hp, rfl⟩ := List.mem_map.mp hq
  exact ⟨p, List.mem_of_mem_filter hp, rfl, rfl⟩

theorem mem_processRound_src {c : List String} :
    ∀ {r : TableAssoc} {q : String × List String}, q ∈ processRound r c →
      ∃ p ∈ r, q.1 = p.1 ∧ ∀ d ∈ q.2, d ∈ p.2 := by
  induction c with
  | nil =>
    intro r q hq
    exact ⟨q, hq, rfl, fun d hd => hd⟩
  | cons t c ih =>
    intro r q hq
    obtain ⟨p', hp', h1, h2⟩ := ih hq
    obtain ⟨p, hp, h3, h4⟩ := mem_removeTable_src hp'
    refine ⟨p, hp, h1.trans h3, ?_⟩
    intro d hd
    have := h2 d hd
    rw [h4] at this
    exact List.mem_of_mem_filter this

theorem processRound_entry {c : List String} :
    ∀ {r : TableAssoc} {k : String} {ds : List String}, k ∉ c → (k, ds) ∈ r →
      (k, c.foldl (fun acc t => acc.filter (fun d => d != t)) ds) ∈ processRound r c := by
  induction c with
  | nil =>
    intro r k ds _ h
    exact h
  | cons t c ih =>
    intro r k ds hk h
    have hkt : k ≠ t := fun he => hk (he ▸ List.mem_cons_self k c)
    have hkc : k ∉ c := fun hc => hk (List.mem_cons_of_mem _ hc)
    have hstep : (k, ds.filter (fun d => d != t)) ∈ removeTable r t := by
      refine List.mem_map.mpr ⟨(k, ds), List.mem_filter.mpr ⟨h, ?_⟩, rfl⟩
      simpa using hkt
    exact ih hkc hstep

theorem mem_foldl_filter {c : List String} :
    ∀ {ds : List String} {x : String},
      (x ∈ c.foldl (fun acc t => acc.filter (fun d => d != t)) ds ↔ x ∈ ds ∧ x ∉ c) := by
  induction c with
  | nil =>
    intro ds x
    simp
  | cons t c ih =>
    intro ds x
    show x ∈ c.foldl _ (ds.filter (fun d => d != t)) ↔ _
    rw [ih, List.mem_filter]
    constructor
    · rintro ⟨⟨hx, hxt⟩, hxc⟩
      refine ⟨hx, ?_⟩
      intro hc
      rcases List.mem_cons.mp hc with rfl | hc
      · simp at hxt
      · exact hxc hc
    · rintro ⟨hx, hxc⟩
      refine ⟨⟨hx, ?_⟩, fun hc => hxc (List.mem_cons_of_mem _ hc)⟩
      have : x ≠ t := fun he => hxc (he ▸ List.mem_cons_self x c)
      simpa using this

theorem truncGo_mem : ∀ (fuel : Nat) {r : TableAssoc}, r.length ≤ fuel →
    ∀ {t : String}, (t ∈ truncGo fuel r ↔ t ∈ r.map Prod.fst) := by
  intro fuel
  induction fuel with
  | zero =>
    intro r hr t
    rw [Nat.le_zero, List.length_eq_zero] at hr
    subst hr
    simp [truncGo]
  | succ fuel ih =>
    intro r hr t
    by_cases hremp : r.isEmpty = true
    · rw [List.isEmpty_iff] at hremp
      subst hremp
      simp [truncGo]
    · have hrne : r ≠ [] := by
        rw [Bool.not_eq_true, List.isEmpty_eq_false] at hremp
        exact hremp
      have hstep : (processRound r (chooseRound r)).length ≤ fuel := by
        have := processRound_length_lt (chooseRound_ne_nil hrne)
          (fun u hu => chooseRound_subset hu)
        omega
      show t ∈ (if r.isEmpty then [] else
        chooseRound r ++ truncGo fuel (processRound r (chooseRound r))) ↔ _
      rw [if_neg hremp, List.mem_append, ih hstep]
      constructor
      · rintro (h | h)
        · exact chooseRound_subset h
        · exact (mem_keys_processRound.mp h).1
      · intro h
        by_cases hc : t ∈ chooseRound r
        · exact Or.inl hc
        · exact Or.inr (mem_keys_processRound.mpr ⟨h, hc⟩)

theorem truncGo_nodup : ∀ (fuel : Nat) {r : TableAssoc}, r.length ≤ fuel →
    (r.map Prod.fst).Nodup → (truncGo fuel r).Nodup := by
  intro fuel
  induction fuel with
  | zero =>
    intro r _ _
    exact List.nodup_nil
  | succ fuel ih =>
    intro r hr hnd
    by_cases hremp : r.isEmpty = true
    · rw [List.isEmpty_iff] at hremp
      subst hremp
      exact List.nodup_nil
    · have hrne : r ≠ [] := by
        rw [Bool.not_eq_true, List.isEmpty_eq_false] at hremp
        exact hremp
      have hstep : (processRound r (chooseRound r)).length ≤ fuel := by
        have := processRound_length_lt (chooseRound_ne_nil hrne)
          (fun u hu => chooseRound_subset hu)
        omega
      show (if r.isEmpty then [] else
        chooseRound r ++ truncGo fuel (processRound r (chooseRound r))).Nodup
      rw [if_neg hremp]
      refine (chooseRound_nodup hnd).append
        (ih hstep (nodup_keys_processRound hnd)) ?_
      intro t htc htg
      have := (truncGo_mem fuel hstep).mp htg
      exact (mem_keys_processRound.mp this).2 htc

theorem truncGo_perm {fuel : Nat} {r : TableAssoc} (hr : r.length ≤ fuel)
    (hnd : (r.map Prod.fst).Nodup) : (truncGo fuel r).Perm (r.map Prod.fst) := by
  rw [List.perm_ext_iff_of_nodup (truncGo_nodup fuel hr hnd) hnd]
  intro t
  exact truncGo_mem fuel hr

theorem mem_processRound_src' {c : List String} :
    ∀ {r : TableAssoc} {q : String × List String}, q ∈ processRound r c →
      ∃ p ∈ r, q.1 = p.1 ∧ ∀ d, (d ∈ q.2 ↔ d ∈ p.2 ∧ d ∉ c) := by
  induction c with
  | nil =>
    intro r q hq
    refine ⟨q, hq, rfl, ?_⟩
    intro d
    simp
  | cons t c ih =>
    intro r q hq
    obtain ⟨p', hp', h1, hiff⟩ := ih hq
    obtain ⟨p, hp, h3, h4⟩ := mem_removeTable_src hp'
    refine ⟨p, hp, h1.trans h3, ?_⟩
    intro d
    rw [hiff d, h4, List.mem_filter]
    constructor
    · rintro ⟨⟨hd, hdt⟩, hdc⟩
      refine ⟨hd, ?_⟩
      intro hc
      rcases List.mem_cons.mp hc with rfl | hc
      · simp at hdt
      · exact hdc hc
    · rintro ⟨hd, hdc⟩
      have hdt : d ≠ t := fun he => hdc (he ▸ List.mem_cons_self d c)
      exact ⟨⟨hd, by simpa using hdt⟩, fun hc => hdc (List.mem_cons_of_mem _ hc)⟩

/-! ### Kahn-loop invariant and progress on acyclic maps -/

theorem kahnInv_processRound {dm : DepMap} {r : TableAssoc} {c : List String}
    (hinv : KahnInv dm r) : KahnInv dm (processRound r c) := by
  obtain ⟨hnd, hclosed, hsub⟩ := hinv
  refine ⟨nodup_keys_processRound hnd, ?_, ?_⟩
  · intro q hq d hd
    obtain ⟨p, hp, _, hiff⟩ := mem_processRound_src' hq
    have h2 := (hiff d).mp hd
    exact mem_keys_processRound.mpr ⟨hclosed p hp d h2.1, h2.2⟩
  · intro q hq d hd
    obtain ⟨p, hp, h1, hiff⟩ := mem_processRound_src' hq
    rw [h1]
    exact hsub p hp d ((hiff d).mp hd).1

theorem keys_nodup_val_unique {r : TableAssoc} (hnd : (r.map Prod.fst).Nodup)
    {k : String} {a b : List String} (ha : (k, a) ∈ r) (hb : (k, b) ∈ r) :
    a = b := by
  have h1 := lookupVal_eq_of_mem hnd ha
  have h2 := lookupVal_eq_of_mem hnd hb
  rw [h1] at h2
  exact h2

theorem walkL_length (r : TableAssoc) : ∀ (n : Nat) (k : String),
    (walkL r n k).length = n + 1 := by
  intro n
  induction n with
  | zero => intro k; rfl
  | succ n ih =>
    intro k
    show (k :: walkL r n (stepD r k)).length = n + 2
    rw [List.length_cons, ih]

theorem walkL_head (r : TableAssoc) : ∀ (n : Nat) (k : String),
    (walkL r n k).head? = some k := by
  intro n k
  cases n <;> rfl

theorem walkL_props {dm : DepMap} {r : TableAssoc}
    (hclosed : ∀ p ∈ r, ∀ d ∈ p.2, d ∈ r.map Prod.fst)
    (hsub : ∀ p ∈ r, ∀ d ∈ p.2, d ∈ depsOf dm p.1)
    (hall : ∀ p ∈ r, p.2 ≠ []) :
    ∀ (n : Nat) (k : String), k ∈ r.map Prod.fst →
      (∀ x ∈ walkL r n k, x ∈ r.map Prod.fst) ∧
      List.Chain' (fun a b => b ∈ depsOf dm a) (walkL r n k) := by
  intro n
  induction n with
  | zero =>
    intro k hk
    refine ⟨?_, List.chain'_singleton k⟩
    intro x hx
    rcases List.mem_cons.mp hx with rfl | hx
    · exact hk
    · cases hx
  | succ n ih =>
    intro k hk
    have hentry : (k, lookupVal r k) ∈ r := mem_of_lookupVal hk
    have hne : lookupVal r k ≠ [] := hall _ hentry
    obtain ⟨d, ds', hds⟩ := List.exists_cons_of_ne_nil hne
    have hstep : stepD r k = d := by
      unfold stepD
      rw [hds]
      rfl
    have hdmem : d ∈ lookupVal r k := by
      rw [hds]
      exact List.mem_cons_self d ds'
    have hdkeys : d ∈ r.map Prod.fst := hclosed _ hentry d hdmem
    have hedge : d ∈ depsOf dm k := hsub _ hentry d hdmem
    obtain ⟨ihmem, ihchain⟩ := ih d hdkeys
    constructor
    · intro x hx
      show x ∈ _
      rcases List.mem_cons.mp hx with rfl | hx
      · exact hk
      · rw [hstep] at hx
        exact ihmem x hx
    · show List.Chain' _ (k :: walkL r n (stepD r k))
      rw [List.chain'_cons']
      refine ⟨?_, by rw [hstep]; exact ihchain⟩
      intro y hy
      rw [hstep, walkL_head] at hy
      cases hy
      exact hedge

theorem exists_dup_of_not_nodup {l : List String} (h : ¬ l.Nodup) :
    ∃ x l₁ l₂ l₃, l = l₁ ++ (x :: (l₂ ++ (x :: l₃))) := by
  induction l with
  | nil => exact absurd List.nodup_nil h
  | cons a l ih =>
    by_cases ha : a ∈ l
    · obtain ⟨s, t, rfl⟩ := List.append_of_mem ha
      exact ⟨a, [], s, t, rfl⟩
    · have hl : ¬ l.Nodup := fun hn => h (List.nodup_cons.mpr ⟨ha, hn⟩)
      obtain ⟨x, l₁, l₂, l₃, rfl⟩ := ih hl
      exact ⟨x, a :: l₁, l₂, l₃, rfl⟩

theorem hasCycle_of_dup_chain {dm : DepMap} {x : String} {l₁ l₂ l₃ : List String}
    (h : List.Chain' (fun a b => b ∈ depsOf dm a) (l₁ ++ (x :: (l₂ ++ (x :: l₃))))) :
    HasCycle dm := by
  have h1 : List.Chain' (fun a b => b ∈ depsOf dm a) (x :: (l₂ ++ (x :: l₃))) :=
    List.Chain'.right_of_append h
  have h2 : List.Chain' (fun a b => b ∈ depsOf dm a) ((x :: (l₂ ++ [x])) ++ l₃) := by
    have heq : (x :: (l₂ ++ [x])) ++ l₃ = x :: (l₂ ++ (x :: l₃)) := by simp
    rw [heq]
    exact h1
  have h3 : List.Chain' (fun a b => b ∈ depsOf dm a) (x :: (l₂ ++ [x])) :=
    List.Chain'.left_of_append h2
  exact ⟨x, l₂, h3⟩

/-- Progress: on an acyclic dependency map a nonempty remaining-dependency
dict always contains a table with no remaining dependencies, so the
cycle-breaking branch of `get_truncation_order` is never taken. -/
theorem exists_empty_entry {dm : DepMap} {r : TableAssoc}
    (hclosed : ∀ p ∈ r, ∀ d ∈ p.2, d ∈ r.map Prod.fst)
    (hsub : ∀ p ∈ r, ∀ d ∈ p.2, d ∈ depsOf dm p.1)
    (hac : Acyclic dm) (hne : r ≠ []) : ∃ p ∈ r, p.2 = [] := by
  by_contra hcon
  push_neg at hcon
  have hall : ∀ p ∈ r, p.2 ≠ [] := hcon
  have hk0 : (r.head hne).1 ∈ r.map Prod.fst :=
    List.mem_map_of_mem _ (List.head_mem hne)
  obtain ⟨hmem, hchain⟩ := walkL_props hclosed hsub hall
    (r.map Prod.fst).length (r.head hne).1 hk0
  have hlen : (walkL r (r.map Prod.fst).length (r.head hne).1).length =
      (r.map Prod.fst).length + 1 := walkL_length _ _ _
  have hnotnodup : ¬ (walkL r (r.map Prod.fst).length (r.head hne).1).Nodup := by
    intro hnd'
    have hsubp := List.subperm_of_subset hnd' (fun x hx => hmem x hx)
    have := hsubp.length_le
    omega
  obtain ⟨x, l₁, l₂, l₃, heq⟩ := exists_dup_of_not_nodup hnotnodup
  rw [heq] at hchain
  exact hac (hasCycle_of_dup_chain hchain)

/-! ### The resolver emits dependencies before dependents (acyclic case) -/

theorem truncGo_before {dm : DepMap} (hac : Acyclic dm) :
    ∀ (fuel : Nat) {r : TableAssoc}, r.length ≤ fuel → KahnInv dm r →
      ∀ {k : String} {ds : List String}, (k, ds) ∈ r → ∀ {d : String}, d ∈ ds →
        ListBefore d k (truncGo fuel r) := by
  intro fuel
  induction fuel with
  | zero =>
    intro r hr _ k ds hkds d _
    rw [Nat.le_zero, List.length_eq_zero] at hr
    subst hr
    cases hkds
  | succ fuel ih =>
    intro r hr hinv k ds hkds d hd
    obtain ⟨hnd, hclosed, hsub⟩ := hinv
    have hrne : r ≠ [] := List.ne_nil_of_mem hkds
    have hremp : ¬ r.isEmpty = true := by
      rw [List.isEmpty_iff]
      exact hrne
    have hprog := exists_empty_entry hclosed hsub hac hrne
    have hkeys : k ∈ r.map Prod.fst := List.mem_map_of_mem _ hkds
    have hknot : k ∉ chooseRound r := by
      intro hkc
      obtain ⟨p, hp, hp1, hp2⟩ := chooseRound_of_empty_entry hprog hkc
      obtain ⟨p1, p2⟩ := p
      dsimp at hp1 hp2
      subst hp1
      subst hp2
      have : ds = [] := keys_nodup_val_unique hnd hkds hp
      rw [this] at hd
      cases hd
    have hstep : (processRound r (chooseRound r)).length ≤ fuel := by
      have := processRound_length_lt (chooseRound_ne_nil hrne)
        (fun u hu => chooseRound_subset hu)
      omega
    show ListBefore d k (if r.isEmpty then [] else
      chooseRound r ++ truncGo fuel (processRound r (chooseRound r)))
    rw [if_neg hremp]
    by_cases hdc : d ∈ chooseRound r
    · obtain ⟨c₁, c₂, hceq⟩ := List.append_of_mem hdc
      have hklater : k ∈ truncGo fuel (processRound r (chooseRound r)) :=
        (truncGo_mem fuel hstep).mpr (mem_keys_processRound.mpr ⟨hkeys, hknot⟩)
      refine ⟨c₁, c₂ ++ truncGo fuel (processRound r (chooseRound r)), ?_, ?_⟩
      · rw [hceq]
        simp
      · exact List.mem_append_right _ hklater
    · have hinv' : KahnInv dm (processRound r (chooseRound r)) :=
        kahnInv_processRound ⟨hnd, hclosed, hsub⟩
      have hentry := processRound_entry hknot hkds
      have hd' : d ∈ (chooseRound r).foldl
          (fun acc t => acc.filter (fun x => x != t)) ds :=
        mem_foldl_filter.mpr ⟨hd, hdc⟩
      exact listBefore_append_left _ (ih hstep hinv' hentry hd')

/-! ### Well-formedness of built dependency maps -/

theorem kahnInv_init {dm : DepMap} (hwf : WellFormed dm) : KahnInv dm dm.deps := by
  obtain ⟨hndt, hkeys, _, hdc, _, _⟩ := hwf
  have hnd : (dm.deps.map Prod.fst).Nodup := by rw [hkeys]; exact hndt
  refine ⟨hnd, ?_, ?_⟩
  · intro p hp d hd
    rw [hkeys]
    exact hdc p hp d hd
  · intro p hp d hd
    have : lookupVal dm.deps p.1 = p.2 := lookupVal_eq_of_mem hnd hp
    show d ∈ lookupVal dm.deps p.1
    rw [this]
    exact hd

theorem resolve_ordering {dm : DepMap} (hwf : WellFormed dm) (hac : Acyclic dm)
    {y x : String} (hx : x ∈ depsOf dm y) :
    ListBefore y x (get_truncation_order dm) := by
  have hinv := kahnInv_init hwf
  have hyne : lookupVal dm.deps y ≠ [] := by
    intro hnil
    show False
    rw [show depsOf dm y = lookupVal dm.deps y from rfl, hnil] at hx
    cases hx
  have hykeys : y ∈ dm.deps.map Prod.fst := lookupVal_ne_nil_mem hyne
  have hentry : (y, lookupVal dm.deps y) ∈ dm.deps := mem_of_lookupVal hykeys
  have hb := truncGo_before hac dm.deps.length (Nat.le_refl _) hinv hentry hx
  exact listBefore_reverse hb

theorem resolve_perm {dm : DepMap} (hwf : WellFormed dm) :
    (get_truncation_order dm).Perm dm.tables := by
  obtain ⟨hndt, hkeys, _, _, _, _⟩ := hwf
  have hnd : (dm.deps.map Prod.fst).Nodup := by rw [hkeys]; exact hndt
  have h1 := truncGo_perm (Nat.le_refl dm.deps.length) hnd
  rw [hkeys] at h1
  exact ((truncGo dm.deps.length dm.deps).reverse_perm).trans h1

theorem resolve_nodup {dm : DepMap} (hwf : WellFormed dm) :
    (get_truncation_order dm).Nodup := by
  obtain ⟨hndt, hkeys, _, _, _, _⟩ := hwf
  have hnd : (dm.deps.map Prod.fst).Nodup := by rw [hkeys]; exact hndt
  exact List.nodup_reverse.mpr (truncGo_nodup dm.deps.length (Nat.le_refl _) hnd)

/-! ### The verifier accepts orders that respect all dependent edges -/

theorem verifyLoop_true {dm : DepMap} {circ : List (String × String)}
    {order : List String} (hnd : order.Nodup)
    (hbef : ∀ t ∈ order, ∀ d ∈ rdepsOf dm t, d ∈ order → ListBefore d t order) :
    ∀ (todo pre processed : List String), order = pre ++ todo →
      (∀ x, x ∈ processed ↔ x ∈ pre) →
      verifyLoop dm circ order processed todo = true := by
  intro todo
  induction todo with
  | nil =>
    intro pre processed _ _
    rfl
  | cons t rest ih =>
    intro pre processed heq hproc
    have htmem : t ∈ order := by
      rw [heq]
      exact List.mem_append_right _ (List.mem_cons_self t rest)
    have hcheck : ((rdepsOf dm t).all (fun d =>
        decide ((d, t) ∈ circ) || decide (d ∈ processed) ||
          !(decide (d ∈ order)))) = true := by
      rw [List.all_eq_true]
      intro d hdmem
      by_cases hdo : d ∈ order
      · have hb := hbef t htmem d hdmem hdo
        rw [heq] at hb hnd
        have hdpre : d ∈ pre := listBefore_split hnd hb
        have hdp : d ∈ processed := (hproc d).mpr hdpre
        simp [hdp]
      · simp [hdo]
    show (if (rdepsOf dm t).all _ then
      verifyLoop dm circ order (t :: processed) rest else false) = true
    rw [hcheck]
    simp only [if_true]
    refine ih (pre ++ [t]) (t :: processed) ?_ ?_
    · rw [heq, List.append_assoc]
      rfl
    · intro x
      rw [List.mem_cons, hproc x, List.mem_append, List.mem_singleton, or_comm]

/-! ### Facts about the cycle detector -/

theorem addPair_mono {c : List (String × String)} {p x : String × String}
    (h : x ∈ c) : x ∈ addPair c p := by
  unfold addPair
  split
  · exact h
  · exact List.mem_append_left _ h

theorem addPair_self (c : List (String × String)) (p : String × String) :
    p ∈ addPair c p := by
  unfold addPair
  split
  · next h => exact h
  · exact List.mem_append_right _ (List.mem_singleton.mpr rfl)

theorem foldl_pres {α β : Type} {P : β → Prop} {f : β → α → β}
    (hf : ∀ b a, P b → P (f b a)) :
    ∀ (l : List α) (b : β), P b → P (l.foldl f b) := by
  intro l
  induction l with
  | nil => intro b hb; exact hb
  | cons a l ih =>
    intro b hb
    exact ih (f b a) (hf b a hb)

theorem addCycleEdges_mono {c : List (String × String)} {cy : List String}
    {x : String × String} (h : x ∈ c) : x ∈ addCycleEdges c cy := by
  unfold addCycleEdges
  have hstep : ∀ (b : List (String × String)) (a : String × String),
      x ∈ b → x ∈ addPair b a := fun b a hb => addPair_mono hb
  have h1 : x ∈ (consecPairs cy).foldl addPair c :=
    foldl_pres hstep (consecPairs cy) c h
  split
  · exact addPair_mono h1
  · exact h1

theorem dfsF_circ_mono (dm : DepMap) :
    ∀ (fuel : Nat) (cur : String) (st : DfsSt) {x : String × String},
      x ∈ st.2.2 → x ∈ (dfsF dm fuel cur st).2.2 := by
  intro fuel
  induction fuel with
  | zero =>
    intro cur st x hx
    exact hx
  | succ fuel ih =>
    intro cur st x hx
    obtain ⟨v, p, c⟩ := st
    show x ∈ (dfsF dm (fuel + 1) cur (v, p, c)).2.2
    by_cases h1 : cur ∈ p
    · simp only [dfsF, if_pos h1]
      exact addCycleEdges_mono hx
    · by_cases h2 : cur ∈ v
      · simp only [dfsF, if_neg h1, if_pos h2]
        exact hx
      · simp only [dfsF, if_neg h1, if_neg h2]
        exact foldl_pres (fun st d hst => ih d st hst) (depsOf dm cur)
          (cur :: v, p ++ [cur], c) hx

theorem selfRefs_fold_mem {dm : DepMap} {t : String} (hself : t ∈ depsOf dm t) :
    ∀ (l : List String) (c : List (String × String)), t ∈ l →
      (t, t) ∈ l.foldl
        (fun c u => if u ∈ depsOf dm u then addPair c (u, u) else c) c := by
  intro l
  induction l with
  | nil => intro c h; cases h
  | cons a l ih =>
    intro c h
    rcases List.mem_cons.mp h with rfl | h
    · show (t, t) ∈ l.foldl _ (if t ∈ depsOf dm t then addPair c (t, t) else c)
      rw [if_pos hself]
      exact foldl_pres
        (fun b u hb => by
          split
          · exact addPair_mono hb
          · exact hb) l _ (addPair_self c (t, t))
    · exact ih _ h

/-- Every self-referencing table is recorded as a `(t, t)` pair by
`_find_circular_dependencies`: the pair is added in the self-reference pass
and the circular set only grows afterwards. -/
theorem find_circular_selfref {dm : DepMap} {t : String}
    (ht : t ∈ dm.tables) (hself : t ∈ depsOf dm t) :
    (t, t) ∈ find_circular_dependencies dm := by
  unfold find_circular_dependencies
  have h1 := selfRefs_fold_mem hself dm.tables [] ht
  exact foldl_pres
    (fun c s hc => by
      split
      · exact hc
      · exact dfsF_circ_mono dm _ s _ hc) dm.tables _ h1

/-! ### On acyclic maps the cycle detector records nothing -/

theorem dfsF_acyclic {dm : DepMap} (hac : Acyclic dm) :
    ∀ (fuel : Nat) (cur : String) (visited path : List String)
      (circ : List (String × String)),
      List.Chain' (fun a b => b ∈ depsOf dm a) (path ++ [cur]) →
      ∃ v', dfsF dm fuel cur (visited, path, circ) = (v', path, circ) := by
  intro fuel
  induction fuel with
  | zero =>
    intro cur visited path circ _
    exact ⟨visited, rfl⟩
  | succ fuel ih =>
    intro cur visited path circ hchain
    by_cases h1 : cur ∈ path
    · exfalso
      obtain ⟨α, β, rfl⟩ := List.append_of_mem h1
      have hre : (α ++ (cur :: β)) ++ [cur] = α ++ (cur :: (β ++ [cur])) := by
        simp
      rw [hre] at hchain
      have h2 : List.Chain' (fun a b => b ∈ depsOf dm a) (cur :: (β ++ [cur])) :=
        List.Chain'.right_of_append hchain
      exact hac ⟨cur, β, h2⟩
    · by_cases h2 : cur ∈ visited
      · refine ⟨visited, ?_⟩
        simp only [dfsF, if_neg h1, if_pos h2]
      · have haux : ∀ (l : List String), (∀ d ∈ l, d ∈ depsOf dm cur) →
            ∀ (v : List String),
            ∃ v'', l.foldl (fun st d => dfsF dm fuel d st)
              (v, path ++ [cur], circ) = (v'', path ++ [cur], circ) := by
          intro l
          induction l with
          | nil =>
            intro _ v
            exact ⟨v, rfl⟩
          | cons d l ihl =>
            intro hdl v
            have hchain' : List.Chain' (fun a b => b ∈ depsOf dm a)
                ((path ++ [cur]) ++ [d]) := by
              refine List.Chain'.append hchain (List.chain'_singleton d) ?_
              intro a ha b hb
              rw [List.getLast?_concat] at ha
              cases ha
              cases hb
              exact hdl d (List.mem_cons_self d l)
            obtain ⟨v₂, hv₂⟩ := ih d v (path ++ [cur]) circ hchain'
            obtain ⟨v'', hv''⟩ := ihl (fun u hu => hdl u (List.mem_cons_of_mem _ hu)) v₂
            refine ⟨v'', ?_⟩
            show l.foldl _ (dfsF dm fuel d (v, path ++ [cur], circ)) = _
            rw [hv₂]
            exact hv''
        obtain ⟨v'', hv''⟩ := haux (depsOf dm cur) (fun d hd => hd) (cur :: visited)
        refine ⟨v'', ?_⟩
        simp only [dfsF, if_neg h1, if_neg h2]
        rw [hv'']
        simp

theorem find_circular_acyclic {dm : DepMap} (hac : Acyclic dm) :
    find_circular_dependencies dm = [] := by
  have hself : ∀ t, t ∉ depsOf dm t := by
    intro t ht
    refine hac ⟨t, [], ?_⟩
    show List.Chain _ t ([] ++ [t])
    rw [List.nil_append]
    exact List.Chain.cons ht List.Chain.nil
  have hsr : ∀ (l : List String) (c : List (String × String)),
      l.foldl (fun c u => if u ∈ depsOf dm u then addPair c (u, u) else c) c = c := by
    intro l
    induction l with
    | nil => intro c; rfl
    | cons a l ih =>
      intro c
      show l.foldl _ (if a ∈ depsOf dm a then addPair c (a, a) else c) = c
      rw [if_neg (hself a)]
      exact ih c
  have hmain : ∀ (l : List String),
      l.foldl (fun c s =>
        if dm.tables.any (fun other => decide ((s, other) ∈ c)) then c
        else (dfsF dm (dm.tables.length + 1) s ([], [], c)).2.2) [] = [] := by
    intro l
    induction l with
    | nil => rfl
    | cons s l ih =>
      have hcond : (dm.tables.any
          (fun other => decide ((s, other) ∈ ([] : List (String × String))))) = false := by
        rw [List.any_eq_false]
        intro u _
        simp
      show l.foldl _ (if dm.tables.any _ then ([] : List (String × String))
        else (dfsF dm (dm.tables.length + 1) s ([], [], [])).2.2) = []
      rw [hcond]
      obtain ⟨v', hv'⟩ := dfsF_acyclic hac (dm.tables.length + 1) s [] [] []
        (by simpa using List.chain'_singleton s)
      rw [if_neg (by simp), hv']
      exact ih
  unfold find_circular_dependencies
  rw [hsr]
  exact hmain dm.tables

/-! ### The resolver's output passes the verifier on acyclic maps -/

theorem verify_resolve_of_acyclic {dm : DepMap} (hwf : WellFormed dm)
    (hac : Acyclic dm) :
    verify_truncation_order dm (get_truncation_order dm) = true := by
  obtain ⟨hndt, hkeys, hrkeys, hdc, hrc, htr⟩ := hwf
  have hperm := resolve_perm ⟨hndt, hkeys, hrkeys, hdc, hrc, htr⟩
  have hmemiff : ∀ t, t ∈ get_truncation_order dm ↔ t ∈ dm.tables :=
    fun t => hperm.mem_iff
  have hcheck : ((get_truncation_order dm).all (fun t => decide (t ∈ dm.tables)) &&
      dm.tables.all (fun t => decide (t ∈ get_truncation_order dm))) = true := by
    rw [Bool.and_eq_true, List.all_eq_true, List.all_eq_true]
    constructor
    · intro t ht
      exact decide_eq_true ((hmemiff t).mp ht)
    · intro t ht
      exact decide_eq_true ((hmemiff t).mpr ht)
  have hbef : ∀ t ∈ get_truncation_order dm, ∀ d ∈ rdepsOf dm t,
      d ∈ get_truncation_order dm → ListBefore d t (get_truncation_order dm) := by
    intro t ht d hd hdo
    have htt : t ∈ dm.tables := (hmemiff t).mp ht
    have hdt : d ∈ dm.tables := (hmemiff d).mp hdo
    have hedge : t ∈ depsOf dm d := (htr d hdt t htt).mpr hd
    exact resolve_ordering ⟨hndt, hkeys, hrkeys, hdc, hrc, htr⟩ hac hedge
  have hloop := @verifyLoop_true dm (find_circular_dependencies dm)
    (get_truncation_order dm)
    (resolve_nodup ⟨hndt, hkeys, hrkeys, hdc, hrc, htr⟩) hbef
    (get_truncation_order dm) [] [] rfl (fun x => by simp)
  show (if (get_truncation_order dm).all _ && dm.tables.all _ then
    verifyLoop dm (find_circular_dependencies dm) (get_truncation_order dm) []
      (get_truncation_order dm) else false) = true
  rw [hcheck]
  simpa using hloop

/-! ### The builder produces well-formed maps when it succeeds -/

theorem alAdd_values {m : TableAssoc} {S : List String}
    (hm : ∀ p ∈ m, ∀ d ∈ p.2, d ∈ S) {k v : String} (hv : v ∈ S) :
    ∀ p ∈ alAdd m k v, ∀ d ∈ p.2, d ∈ S := by
  intro p hp d hd
  obtain ⟨q, hq, hpq⟩ := List.mem_map.mp hp
  by_cases hqk : q.1 = k
  · rw [if_pos hqk] at hpq
    rw [← hpq] at hd
    rcases mem_addStr.mp hd with h | rfl
    · exact hm q hq d h
    · exact hv
  · rw [if_neg hqk] at hpq
    rw [← hpq] at hd
    exact hm q hq d hd

theorem addFks_inv {tables : List String} {t : String} (ht : t ∈ tables) :
    ∀ (rts : List String) {st st' : TableAssoc × TableAssoc},
      BuildInv tables st → addFks t rts st = .ok st' → BuildInv tables st' := by
  intro rts
  induction rts with
  | nil =>
    intro st st' hinv heq
    cases heq
    exact hinv
  | cons rt rts ih =>
    intro st st' hinv heq
    obtain ⟨hk1, hk2, hc1, hc2, htr⟩ := hinv
    show _
    by_cases hhk : hasKey st.2 rt = true
    · rw [show addFks t (rt :: rts) st =
        (if hasKey st.2 rt then addFks t rts (alAdd st.1 t rt, alAdd st.2 rt t)
          else .error rt) from rfl, if_pos hhk] at heq
      have hrt : rt ∈ tables := by
        rw [← hk2]
        exact hasKey_iff.mp hhk
      have htk1 : t ∈ st.1.map Prod.fst := by rw [hk1]; exact ht
      have hrtk2 : rt ∈ st.2.map Prod.fst := by rw [hk2]; exact hrt
      refine ih ?_ heq
      refine ⟨by rw [alAdd_keys]; exact hk1, by rw [alAdd_keys]; exact hk2,
        alAdd_values hc1 hrt, alAdd_values hc2 ht, ?_⟩
      intro a b
      by_cases hat : a = t
      · by_cases hbrt : b = rt
        · subst hat
          subst hbrt
          rw [lookupVal_alAdd_same _ htk1, lookupVal_alAdd_same _ hrtk2,
            mem_addStr, mem_addStr]
          simp
        · subst hat
          rw [lookupVal_alAdd_same _ htk1, lookupVal_alAdd_other _ hbrt, mem_addStr]
          constructor
          · rintro (h | rfl)
            · exact (htr a b).mp h
            · exact absurd rfl hbrt
          · intro h
            exact Or.inl ((htr a b).mpr h)
      · by_cases hbrt : b = rt
        · subst hbrt
          rw [lookupVal_alAdd_other _ hat, lookupVal_alAdd_same _ hrtk2, mem_addStr]
          constructor
          · intro h
            exact Or.inl ((htr a b).mp h)
          · rintro (h | rfl)
            · exact (htr a b).mpr h
            · exact absurd rfl hat
        · rw [lookupVal_alAdd_other _ hat, lookupVal_alAdd_other _ hbrt]
          exact htr a b
    · rw [show addFks t (rt :: rts) st =
        (if hasKey st.2 rt then addFks t rts (alAdd st.1 t rt, alAdd st.2 rt t)
          else .error rt) from rfl, if_neg hhk] at heq
      cases heq

theorem buildLoop_inv {tables : List String} {fks : String → List String} :
    ∀ (ts : List String), (∀ u ∈ ts, u ∈ tables) →
      ∀ {st st' : TableAssoc × TableAssoc}, BuildInv tables st →
        buildLoop fks ts st = .ok st' → BuildInv tables st' := by
  intro ts
  induction ts with
  | nil =>
    intro _ st st' hinv heq
    cases heq
    exact hinv
  | cons t ts ih =>
    intro hts st st' hinv heq
    show _
    rcases hfk : addFks t (fks t) st with e | st₂
    · rw [show buildLoop fks (t :: ts) st =
        (match addFks t (fks t) st with
          | .ok st₂ => buildLoop fks ts st₂
          | .error e => .error e) from rfl, hfk] at heq
      cases heq
    · rw [show buildLoop fks (t :: ts) st =
        (match addFks t (fks t) st with
          | .ok st₂ => buildLoop fks ts st₂
          | .error e => .error e) from rfl, hfk] at heq
      have hinv₂ := addFks_inv (hts t (List.mem_cons_self t ts)) (fks t) hinv hfk
      exact ih (fun u hu => hts u (List.mem_cons_of_mem _ hu)) hinv₂ heq

theorem lookupVal_init (l : List String) (a : String) :
    lookupVal (l.map (fun t => (t, ([] : List String)))) a = [] := by
  induction l with
  | nil => rfl
  | cons t l ih =>
    show (if t = a then [] else lookupVal (l.map _) a) = []
    split
    · rfl
    · exact ih

theorem keys_init : ∀ (l : List String),
    (l.map (fun t => (t, ([] : List String)))).map Prod.fst = l := by
  intro l
  induction l with
  | nil => rfl
  | cons t l ih =>
    show t :: (l.map _).map Prod.fst = t :: l
    rw [ih]

theorem buildInv_init (tables : List String) :
    BuildInv tables (tables.map (fun t => (t, [])), tables.map (fun t => (t, []))) := by
  have hkeys : (tables.map (fun t => (t, ([] : List String)))).map Prod.fst = tables :=
    keys_init tables
  have hvals : ∀ p ∈ tables.map (fun t => (t, ([] : List String))),
      ∀ d ∈ p.2, d ∈ tables := by
    intro p hp d hd
    obtain ⟨u, _, rfl⟩ := List.mem_map.mp hp
    cases hd
  refine ⟨hkeys, hkeys, hvals, hvals, ?_⟩
  intro a b
  rw [lookupVal_init, lookupVal_init]
  simp

theorem build_wellFormed {tables : List String} {fks : String → List String}
    {dm : DepMap} (hnd : tables.Nodup)
    (hb : build_dependencies tables fks = .ok dm) : WellFormed dm := by
  rcases hloop : buildLoop fks tables
      (tables.map (fun t => (t, [])), tables.map (fun t => (t, []))) with e | st
  · rw [show build_dependencies tables fks =
      (match buildLoop fks tables
          (tables.map (fun t => (t, [])), tables.map (fun t => (t, []))) with
        | .ok st => .ok ⟨tables, st.1, st.2⟩
        | .error e => .error e) from rfl, hloop] at hb
    cases hb
  · rw [show build_dependencies tables fks =
      (match buildLoop fks tables
          (tables.map (fun t => (t, [])), tables.map (fun t => (t, []))) with
        | .ok st => .ok ⟨tables, st.1, st.2⟩
        | .error e => .error e) from rfl, hloop] at hb
    have hinv := buildLoop_inv tables (fun u hu => hu) (buildInv_init tables) hloop
    obtain ⟨hk1, hk2, hc1, hc2, htr⟩ := hinv
    cases hb
    exact ⟨hnd, hk1, hk2, hc1, hc2, fun t _ d _ => htr t d⟩

/-! ### The verifier's completeness check -/

theorem verify_false_of_set_mismatch {dm : DepMap} {order : List String}
    (h : ∃ t, ¬ (t ∈ order ↔ t ∈ dm.tables)) :
    verify_truncation_order dm order = false := by
  obtain ⟨t, ht⟩ := h
  show (if order.all (fun t => decide (t ∈ dm.tables)) &&
      dm.tables.all (fun t => decide (t ∈ order)) then
    verifyLoop dm (find_circular_dependencies dm) order [] order else false) = false
  rcases hC : (order.all (fun t => decide (t ∈ dm.tables)) &&
      dm.tables.all (fun t => decide (t ∈ order))) with _ | _
  · rfl
  · exfalso
    rw [Bool.and_eq_true, List.all_eq_true, List.all_eq_true] at hC
    refine ht ⟨?_, ?_⟩
    · intro hto
      exact of_decide_eq_true (hC.1 t hto)
    · intro htt
      exact of_decide_eq_true (hC.2 t htt)

/-! ### Claim theorems -/

/-- C1: for every well-formed dependency map with no cyclic dependencies,
the sequence returned by `get_truncation_order` passes
`verify_truncation_order`, and the internally detected cycle set is empty. -/
theorem C1_acyclic_resolve_passes_verify (dm : DepMap)
    (hwf : WellFormed dm) (hac : Acyclic dm) :
    find_circular_dependencies dm = [] ∧
    verify_truncation_order dm (get_truncation_order dm) = true :=
  ⟨find_circular_acyclic hac, verify_resolve_of_acyclic hwf hac⟩

theorem C1_witness :
    find_circular_dependencies
      ⟨["a", "b", "c"], [("a", ["b"]), ("b", ["c"]), ("c", [])],
        [("a", []), ("b", ["a"]), ("c", ["b"])]⟩ = [] ∧
    verify_truncation_order
      ⟨["a", "b", "c"], [("a", ["b"]), ("b", ["c"]), ("c", [])],
        [("a", []), ("b", ["a"]), ("c", ["b"])]⟩
      (get_truncation_order
        ⟨["a", "b", "c"], [("a", ["b"]), ("b", ["c"]), ("c", [])],
          [("a", []), ("b", ["a"]), ("c", ["b"])]⟩) = true :=
  C1_acyclic_resolve_passes_verify _ (by decide)
    (acyclic_of_rank _ (fun s => if s = "a" then 2 else if s = "b" then 1 else 0)
      (by decide) (by decide))

/-- C2: on a well-formed acyclic dependency map, for every edge "y depends on
x" the resolver's output places y strictly before x. -/
theorem C2_dependent_before_dependency (dm : DepMap)
    (hwf : WellFormed dm) (hac : Acyclic dm) (y x : String)
    (hx : x ∈ depsOf dm y) : ListBefore y x (get_truncation_order dm) :=
  resolve_ordering hwf hac hx

theorem C2_witness :
    ListBefore "a" "b" (get_truncation_order
      ⟨["a", "b", "c"], [("a", ["b"]), ("b", ["c"]), ("c", [])],
        [("a", []), ("b", ["a"]), ("c", ["b"])]⟩) ∧
    ListBefore "b" "c" (get_truncation_order
      ⟨["a", "b", "c"], [("a", ["b"]), ("b", ["c"]), ("c", [])],
        [("a", []), ("b", ["a"]), ("c", ["b"])]⟩) :=
  ⟨C2_dependent_before_dependency _ (by decide)
      (acyclic_of_rank _ (fun s => if s = "a" then 2 else if s = "b" then 1 else 0)
        (by decide) (by decide)) "a" "b" (by decide),
    C2_dependent_before_dependency _ (by decide)
      (acyclic_of_rank _ (fun s => if s = "a" then 2 else if s = "b" then 1 else 0)
        (by decide) (by decide)) "b" "c" (by decide)⟩

/-- C3: for every well-formed dependency map, cyclic or not,
`get_truncation_order` returns a permutation of the table set: every table
exactly once, no duplicates, no omissions. -/
theorem C3_resolve_is_permutation (dm : DepMap) (hwf : WellFormed dm) :
    (get_truncation_order dm).Perm dm.tables ∧ (get_truncation_order dm).Nodup :=
  ⟨resolve_perm hwf, resolve_nodup hwf⟩

theorem C3_witness :
    (get_truncation_order
      ⟨["a", "b"], [("a", ["b"]), ("b", ["a"])], [("a", ["b"]), ("b", ["a"])]⟩).Perm
      ["a", "b"] ∧
    (get_truncation_order
      ⟨["a", "b"], [("a", ["b"]), ("b", ["a"])], [("a", ["b"]), ("b", ["a"])]⟩).Nodup :=
  C3_resolve_is_permutation _ (by decide)

/-- C4: contrary to the claim, the dependency graph builder fails on an
introspection result in which a table references a table name outside the
inspected set: `reverse_dependencies[referenced_table]` is a plain dict
indexing initialised only with inspected tables, so the build raises
`KeyError` (modelled as `Except.error`) instead of recording the unknown
name. -/
theorem C4_build_fails_on_unknown_reference :
    build_dependencies ["a"] (fun t => if t = "a" then ["x"] else []) =
      Except.error "x" := by
  rfl

/-- C5 (amended): the verifier returns `False` whenever the candidate order's
set of entries differs from the table set (an omission or an extra table);
but the check is pure set comparison, so a candidate with a duplicate entry
whose underlying set still matches is not rejected. -/
theorem C5_set_mismatch_rejected (dm : DepMap) (order : List String)
    (h : ∃ t, ¬ (t ∈ order ↔ t ∈ dm.tables)) :
    verify_truncation_order dm order = false :=
  verify_false_of_set_mismatch h

theorem C5_witness :
    verify_truncation_order ⟨["a"], [("a", [])], [("a", [])]⟩ ["a", "b"] = false :=
  C5_set_mismatch_rejected _ _ ⟨"b", by decide⟩

theorem C5_counterexample :
    ¬ (["a", "a"] : List String).Nodup ∧
    verify_truncation_order ⟨["a"], [("a", [])], [("a", [])]⟩ ["a", "a"] = true := by
  constructor
  · decide
  · decide

/-- C6 (amended): every self-referencing table `t` yields the pair `(t, t)`
in the result of `_find_circular_dependencies`; however, not every returned
pair is an edge of the dependency graph: when a multi-table cycle is
detected, the extraction also records a spurious `(entry, entry)` pair for
the table at which the cycle was found, even though that table has no
self-referencing foreign key. -/
theorem C6_selfref_detected (dm : DepMap) (t : String)
    (ht : t ∈ dm.tables) (hself : t ∈ depsOf dm t) :
    (t, t) ∈ find_circular_dependencies dm :=
  find_circular_selfref ht hself

theorem C6_witness :
    ("s", "s") ∈ find_circular_dependencies
      ⟨["s"], [("s", ["s"])], [("s", ["s"])]⟩ :=
  C6_selfref_detected _ "s" (by decide) (by decide)

theorem C6_counterexample :
    ("a", "a") ∈ find_circular_dependencies
      ⟨["a", "b"], [("a", ["b"]), ("b", ["a"])], [("a", ["b"]), ("b", ["a"])]⟩ ∧
    "a" ∉ depsOf
      ⟨["a", "b"], [("a", ["b"]), ("b", ["a"])], [("a", ["b"]), ("b", ["a"])]⟩ "a" := by
  constructor
  · decide
  · decide

/-- C7: with `max_retries = 2`, `initial_delay = 0.1`, `backoff_factor = 2`
(and the default `max_delay = 5`), an operation that raises a retriable
exception on its first two invocations and succeeds on the third makes the
wrapper return the success value after exactly 3 invocations, with exactly
two sleeps of 0.1s and then 0.2s, matching
`delay = min(initial_delay * backoff_factor ^ attempt, max_delay)`. -/
theorem C7_retry_transient_then_success {α : Type} (op : Nat → Except DbExc α)
    (v : α) (e0 e1 : DbExc)
    (h0 : op 0 = .error e0) (h1 : op 1 = .error e1) (h2 : op 2 = .ok v)
    (he0n : e0.nonRetriable = false) (he0r : e0.retriable = true)
    (he1n : e1.nonRetriable = false) (he1r : e1.retriable = true) :
    retry_database_operation 2 (1/10) 5 2 op =
      RetryOutcome.ok v 3 [1/10, 1/5] := by
  show retryGo op 2 2 5 3 0 (1/10) [] none = _
  norm_num [retryGo, h0, h1, h2, he0n, he0r, he1n, he1r]

theorem C7_witness :
    retry_database_operation 2 (1/10) 5 2
      (fun n => if n < 2 then Except.error ⟨false, true, false, n⟩
        else Except.ok (42 : Nat)) =
      RetryOutcome.ok 42 3 [1/10, 1/5] :=
  C7_retry_transient_then_success _ 42 ⟨false, true, false, 0⟩ ⟨false, true, false, 1⟩
    rfl rfl rfl rfl rfl rfl rfl

/-- C8: an operation whose failure is classified as non-retriable, or as
neither retriable nor non-retriable, is invoked exactly once; the wrapper
re-raises the original exception unchanged with no sleep — the non-retriable
check runs first, so this holds even when the exception is also an instance
of a retriable type. -/
theorem C8_permanent_fails_fast {α : Type} (op : Nat → Except DbExc α)
    (e : DbExc) (h0 : op 0 = .error e)
    (he : e.nonRetriable = true ∨ e.retriable = false)
    (maxRetries : Nat) (initialDelay maxDelay backoffFactor : ℚ) :
    retry_database_operation maxRetries initialDelay maxDelay backoffFactor op =
      RetryOutcome.raised e 1 [] := by
  show retryGo op maxRetries backoffFactor maxDelay (maxRetries + 1) 0
    initialDelay [] none = _
  rcases hnr : e.nonRetriable with _ | _
  · have hr : e.retriable = false := by
      rcases he with h | h
      · rw [h] at hnr
        cases hnr
      · exact h
    simp [retryGo, h0, hnr, hr]
  · simp [retryGo, h0, hnr]

theorem C8_witness :
    retry_database_operation 3 (1/2) 5 2
      (fun _ => (Except.error ⟨true, true, false, 7⟩ : Except DbExc Nat)) =
      RetryOutcome.raised ⟨true, true, false, 7⟩ 1 [] :=
  C8_permanent_fails_fast _ ⟨true, true, false, 7⟩ rfl (Or.inl rfl) 3 (1/2) 5 2

/-- C9 (amended): when the wrapped operation raises an exception whose
message does not mention a timeout and the elapsed wall time exceeds the
budget, the wrapper raises the distinct `DatabaseTimeoutError` chained from
the original exception.  When the operation returns normally, however, the
wrapper returns its value regardless of elapsed time, and an exception whose
message mentions a timeout is re-raised as is. -/
theorem C9_timeout_error_on_slow_failure {α : Type} (t : ℚ) (op : TimedOp α)
    (e : DbExc) (hres : op.result = .error e) (hmsg : e.msgHasTimeout = false)
    (hel : op.elapsed > t) : with_timeout t op = TimeoutOutcome.timedOut e := by
  unfold with_timeout
  rw [hres]
  simp [hmsg, hel]

theorem C9_witness :
    with_timeout 10 (⟨20, Except.error ⟨false, true, false, 3⟩⟩ : TimedOp Nat) =
      TimeoutOutcome.timedOut ⟨false, true, false, 3⟩ :=
  C9_timeout_error_on_slow_failure 10 _ ⟨false, true, false, 3⟩ rfl rfl (by norm_num)

theorem C9_counterexample :
    (10 : ℚ) < 20 ∧
    with_timeout 10 (⟨20, Except.ok 0⟩ : TimedOp Nat) = TimeoutOutcome.ok 0 :=
  ⟨by norm_num, rfl⟩

/-- C10 (amended): the verifier accepts the resolver's output on every
dependency map the builder produces from a duplicate-free table list whose
dependency graph is acyclic.  With cycles this can fail: the cycle-breaking
round forces every minimum-dependency table at once, and an edge from a
forced table into a cycle member is not exempted by the verifier's detected
cycle set. -/
theorem C10_acyclic_build_resolve_verify (tables : List String)
    (fks : String → List String) (dm : DepMap) (hnd : tables.Nodup)
    (hb : build_dependencies tables fks = Except.ok dm) (hac : Acyclic dm) :
    verify_truncation_order dm (get_truncation_order dm) = true :=
  verify_resolve_of_acyclic (build_wellFormed hnd hb) hac

theorem C10_witness :
    verify_truncation_order
      ⟨["p", "q"], [("p", ["q"]), ("q", [])], [("p", []), ("q", ["p"])]⟩
      (get_truncation_order
        ⟨["p", "q"], [("p", ["q"]), ("q", [])], [("p", []), ("q", ["p"])]⟩) = true :=
  C10_acyclic_build_resolve_verify ["p", "q"]
    (fun t => if t = "p" then ["q"] else []) _ (by decide) rfl
    (acyclic_of_rank _ (fun s => if s = "p" then 1 else 0) (by decide) (by decide))

theorem C10_counterexample :
    build_dependencies ["d", "a", "b"]
      (fun t => if t = "d" then ["a"] else if t = "a" then ["b"]
        else if t = "b" then ["a"] else []) =
      Except.ok ⟨["d", "a", "b"], [("d", ["a"]), ("a", ["b"]), ("b", ["a"])],
        [("d", []), ("a", ["d", "b"]), ("b", ["a"])]⟩ ∧
    verify_truncation_order
      ⟨["d", "a", "b"], [("d", ["a"]), ("a", ["b"]), ("b", ["a"])],
        [("d", []), ("a", ["d", "b"]), ("b", ["a"])]⟩
      (get_truncation_order
        ⟨["d", "a", "b"], [("d", ["a"]), ("a", ["b"]), ("b", ["a"])],
          [("d", []), ("a", ["d", "b"]), ("b", ["a"])]⟩) = false := by
  constructor
  · rfl
  · decide
